import Mathlib

/-!
Shallow embedding of the peak-detection code (`scripts/find_peaks_3d.py`) and
the cube-resampling helper (`utils/cube_utils.py`) of the
`wallaby-galaxy-pair` repository, together with theorems checking the
natural-language specification against it.

Floating-point samples are modelled as rationals extended with a NaN element
(`Val`); the numpy comparison semantics relevant to the code (NaN compares
false under `==` and `>`, sorts last in ascending `argsort`) are embedded in
the boolean comparison functions on `Val`.  numpy arrays are modelled as a
shape together with the row-major (C-order) flat list of elements.
-/

set_option maxHeartbeats 1000000

namespace FindPeaks3D

/-- A floating-point sample: either NaN or a (rational) number. -/
inductive Val : Type where
  | nan : Val
  | num : ℚ → Val
deriving DecidableEq, Repr

/-- `np.isnan` on a single sample. -/
def Val.isNaN : Val → Bool
  | .nan => true
  | .num _ => false

/-- numpy elementwise `==`: NaN is not equal to anything, including itself. -/
def Val.eqb : Val → Val → Bool
  | .num a, .num b => decide (a = b)
  | _, _ => false

/-- numpy elementwise `>`: any comparison involving NaN is false. -/
def Val.gtb : Val → Val → Bool
  | .num a, .num b => decide (b < a)
  | _, _ => false

/-- The `<=` total preorder used to model `np.argsort`'s ascending order:
numeric values ordered as usual, NaN sorting after every number. -/
def Val.leb : Val → Val → Bool
  | .num a, .num b => decide (a ≤ b)
  | _, .nan => true
  | .nan, .num _ => false

/-- Binary maximum used by the moving maximum filter. -/
def Val.maxv (a b : Val) : Val := if Val.gtb b a then b else a

/-- Maximum of a window of samples (windows are always nonempty in use). -/
def maxList : List Val → Val
  | [] => Val.nan
  | v :: vs => vs.foldl Val.maxv v

/-- `np.nanmin`: minimum over the finite entries; NaN when there is none. -/
def nanmin (xs : List Val) : Val :=
  match xs.filterMap (fun v => match v with | .num q => some q | .nan => none) with
  | [] => Val.nan
  | q :: qs => Val.num (qs.foldl min q)

/-- An n-dimensional numpy array over `α`: its shape and its elements in
row-major (C-order) flat order. -/
structure NDArr (α : Type) : Type where
  shape : List Nat
  data : List α
deriving DecidableEq, Repr

/-- Row-major flat index of a coordinate in a given shape. -/
def flatIndex : List Nat → List Nat → Nat
  | _ :: ds, i :: is => i * ds.prod + flatIndex ds is
  | _, _ => 0

/-- All coordinates of a shape, in row-major (lexicographic) order — the
iteration order of `numpy.nonzero`. -/
def allCoords : List Nat → List (List Nat)
  | [] => [[]]
  | n :: rest => (List.range n).flatMap (fun i => (allCoords rest).map (i :: ·))

/-- Element lookup at a coordinate (scalar indexing `a[c0, c1, ...]`). -/
def NDArr.get (a : NDArr Val) (c : List Nat) : Val :=
  a.data.getD (flatIndex a.shape c) Val.nan

/-- The NaN-removal preprocessing step of `find_peaks`: if any entry is NaN,
work on a copy in which every NaN entry is replaced by `np.nanmin` of the
data; otherwise the array is passed through unchanged. -/
def sanitize (a : NDArr Val) : NDArr Val :=
  if a.data.any Val.isNaN then
    ⟨a.shape, a.data.map (fun v => if v.isNaN then nanmin a.data else v)⟩
  else a

/-- Clamping of an out-of-bounds neighbour index: `mode='nearest'` edge
extension of `scipy.ndimage.maximum_filter`. -/
def clampIdx (ext : Nat) (i : Int) : Nat :=
  if i < 0 then 0 else if (ext : Int) ≤ i then ext - 1 else i.toNat

/-- The per-axis offsets of a box window of side `s` (centred for odd `s`,
scipy's origin-0 placement for even `s`). -/
def boxOffsets (s : Nat) : List Int :=
  (List.range s).map (fun j => (j : Int) - (s / 2))

/-- Cartesian product of per-axis offset lists: all relative offsets of a
rectangular window over the given rank. -/
def prodOffsets (s : Nat) : Nat → List (List Int)
  | 0 => [[]]
  | r + 1 => (boxOffsets s).flatMap (fun o => (prodOffsets s r).map (o :: ·))

/-- The relative offsets selected by an explicit boolean footprint array
(True cells, each shifted by the footprint's centre). -/
def footprintOffsets (fp : NDArr Bool) : List (List Int) :=
  ((allCoords fp.shape).zip fp.data).filterMap
    (fun cb => if cb.2 then
        some ((cb.1.zip fp.shape).map (fun ie => (ie.1 : Int) - (ie.2 / 2)))
      else none)

/-- The neighbour coordinate reached from `c` by relative offset `o`, with
nearest-edge clamping on every axis. -/
def neighbor (shape c : List Nat) (o : List Int) : List Nat :=
  (shape.zip (c.zip o)).map (fun x => clampIdx x.1 ((x.2.1 : Int) + x.2.2))

/-- Moving maximum over a set of relative offsets
(`scipy.ndimage.maximum_filter` with `mode='nearest'`). -/
def maximumFilter (a : NDArr Val) (offs : List (List Int)) : NDArr Val :=
  ⟨a.shape, (allCoords a.shape).map
    (fun c => maxList (offs.map (fun o => a.get (neighbor a.shape c o))))⟩

/-- `peak_goodmask = (data == data_max)`: candidate mask of cells equal to
their neighbourhood maximum. -/
def candidateMask (a dmax : NDArr Val) : NDArr Bool :=
  ⟨a.shape, a.data.zipWith Val.eqb dmax.data⟩

/-- The external-mask narrowing step: AND with the negation of the mask,
after checking that the shapes agree (`ValueError` otherwise). -/
def maskStep (g : NDArr Bool) (mask : Option (NDArr Bool)) :
    Except String (NDArr Bool) :=
  match mask with
  | none => .ok g
  | some m =>
      if g.shape = m.shape then
        .ok ⟨g.shape, g.data.zipWith (fun a b => a && !b) m.data⟩
      else .error "data and mask must have the same shape"

/-- Whether index `idx` on an axis of extent `ext` survives the border
assignments `m[:b] = False; m[-b:] = False`.  Note that for `b = 0` the
Python slice `[-0:]` is the whole axis, so nothing survives. -/
def borderKeep (b ext idx : Nat) : Bool :=
  !(decide (idx < b) || decide (b = 0) || decide (ext ≤ idx + b))

/-- The border-exclusion narrowing step (the `swapaxes` loop): a cell
survives iff it was set and `borderKeep` holds on every axis. -/
def borderStep (g : NDArr Bool) (bw : Option Nat) : NDArr Bool :=
  match bw with
  | none => g
  | some b =>
      ⟨g.shape, (g.data.zip (allCoords g.shape)).map
        (fun vc => vc.1 && (vc.2.zip g.shape).all (fun ie => borderKeep b ie.2 ie.1))⟩

/-- The threshold narrowing step: AND with `data > threshold` (strict). -/
def thresholdStep (g : NDArr Bool) (d : NDArr Val) (t : Val) : NDArr Bool :=
  ⟨g.shape, g.data.zipWith (fun a v => a && Val.gtb v t) d.data⟩

/-- `peak_goodmask.nonzero()` as coordinate lists: the coordinates of the
True cells, in row-major scan order. -/
def trueCoords (g : NDArr Bool) : List (List Nat) :=
  ((allCoords g.shape).zip g.data).filterMap
    (fun cb => if cb.2 then some cb.1 else none)

/-- The key order used to model `np.argsort(peak_values)` on index/value
pairs: compare by value under `Val.leb`. -/
def valLe (p q : Nat × Val) : Prop := Val.leb p.2 q.2 = true

instance : DecidableRel valLe := fun _ _ => instDecidableEqBool _ _

instance : IsTotal (Nat × Val) valLe :=
  ⟨fun p q => by
    rcases p with ⟨i, _ | a⟩ <;> rcases q with ⟨j, _ | b⟩ <;>
      simp [valLe, Val.leb, le_total]⟩

instance : IsTrans (Nat × Val) valLe :=
  ⟨fun p q r hpq hqr => by
    rcases p with ⟨i, _ | a⟩ <;> rcases q with ⟨j, _ | b⟩ <;>
      rcases r with ⟨k, _ | c⟩ <;> simp_all [valLe, Val.leb]
    exact le_trans hpq hqr⟩

/-- `np.argsort(vals)`: the index permutation that sorts the values in
ascending order, modelled as a stable ascending sort (numpy's sort is an
insertion sort, hence stable, on arrays of fewer than 17 elements). -/
def argsort (vals : List Val) : List Nat :=
  (List.insertionSort valLe vals.enum).map Prod.fst

/-- The row indices kept by the truncation step:
`np.argsort(peak_values)[::-1][:npeaks]`. -/
def truncIdx (vals : List Val) (k : Nat) : List Nat :=
  ((argsort vals).reverse).take k

/-- A cell of the output `QTable`: integer coordinate, sample value, or a
sky coordinate (pair of world values). -/
inductive Cell : Type where
  | int : Nat → Cell
  | val : Val → Cell
  | sky : Val → Val → Cell
deriving DecidableEq, Repr

/-- The output table: named columns in order (insertion order preserved). -/
structure QTable : Type where
  cols : List (String × List Cell)
deriving DecidableEq, Repr

/-- The column names of a table, in order. -/
def QTable.colnames (t : QTable) : List String := t.cols.map Prod.fst

instance {ε α : Type} [DecidableEq ε] [DecidableEq α] :
    DecidableEq (Except ε α) := fun a b =>
  match a, b with
  | .error e, .error f =>
      if h : e = f then .isTrue (by rw [h]) else .isFalse (by simp [h])
  | .ok x, .ok y =>
      if h : x = y then .isTrue (by rw [h]) else .isFalse (by simp [h])
  | .error _, .ok _ => .isFalse (by simp)
  | .ok _, .error _ => .isFalse (by simp)

/-- A batched pixel→world transform (`wcs.pixel_to_world`), applied
elementwise to an (x, y) pair of pixel coordinates. -/
def WcsFn : Type := Val → Val → Val × Val

/-- Modelled from the spec: `centroid_sources` lives in the repository's
`centroids` module, which is not part of the sources at hand; per the spec
it is a batched sub-pixel centroid estimation collaborator taking the data
and the peak x/y coordinate arrays and returning the x and y centroid
arrays (the neighbourhood, error and mask arguments the call also forwards
are absorbed into this opaque collaborator). -/
def CentroidFn : Type := NDArr Val → List Nat → List Nat → List Val × List Val

/-- The window offsets used by the maximum filter: the explicit footprint's
offsets if one is given, else the rectangular box of side `box_size`. -/
def filterOffsets (d : NDArr Val) (box_size : Nat)
    (footprint : Option (NDArr Bool)) : List (List Int) :=
  match footprint with
  | some fp => footprintOffsets fp
  | none => prodOffsets box_size d.shape.length

/-- The fully narrowed candidate mask: local-maximum candidates, AND-ed with
the external mask (may fail on a shape mismatch), the border exclusion and
the strict threshold comparison — lines 13-41 of `find_peaks_3d.py`. -/
def goodmask3 (data : NDArr Val) (threshold : Val) (box_size : Nat)
    (footprint : Option (NDArr Bool)) (mask : Option (NDArr Bool))
    (border_width : Option Nat) : Except String (NDArr Bool) :=
  match maskStep (candidateMask (sanitize data) (maximumFilter (sanitize data)
      (filterOffsets (sanitize data) box_size footprint))) mask with
  | .error e => .error e
  | .ok g1 => .ok (thresholdStep (borderStep g1 border_width) (sanitize data)
      threshold)

/-- The tuple destructuring `z_peaks, y_peaks, x_peaks = mask.nonzero()`:
succeeds exactly when the array rank is 3. -/
def unpack3 (shape : List Nat) (coords : List (List Nat)) :
    Except String (List Nat × List Nat × List Nat) :=
  match shape with
  | [_, _, _] => .ok (coords.map (·.getD 0 0), coords.map (·.getD 1 0),
      coords.map (·.getD 2 0))
  | _ => .error "nonzero coordinate arrays do not unpack into z, y, x"

/-- The top-`k` truncation of lines 46-52: reindex the four arrays by
`np.argsort(peak_values)[::-1][:npeaks]` when more candidates than `npeaks`
were extracted. -/
def truncate (z_peaks y_peaks x_peaks : List Nat) (peak_values : List Val)
    (npeaks : Option Nat) : List Nat × List Nat × List Nat × List Val :=
  match npeaks with
  | none => (z_peaks, y_peaks, x_peaks, peak_values)
  | some k =>
      if k < x_peaks.length then
        (((truncIdx peak_values k).map (fun i => z_peaks.getD i 0)),
         ((truncIdx peak_values k).map (fun i => y_peaks.getD i 0)),
         ((truncIdx peak_values k).map (fun i => x_peaks.getD i 0)),
         ((truncIdx peak_values k).map (fun i => peak_values.getD i Val.nan)))
      else (z_peaks, y_peaks, x_peaks, peak_values)

/-- The peak coordinate and value lists produced by `find_peaks` before the
output table is assembled: narrowing, extraction and top-`npeaks`
truncation (lines 13-52 of `find_peaks_3d.py`). -/
def peakLists (data : NDArr Val) (threshold : Val) (box_size : Nat)
    (footprint : Option (NDArr Bool)) (mask : Option (NDArr Bool))
    (border_width : Option Nat) (npeaks : Option Nat) :
    Except String (List Nat × List Nat × List Nat × List Val) :=
  match goodmask3 data threshold box_size footprint mask border_width with
  | .error e => .error e
  | .ok g3 =>
      match unpack3 (sanitize data).shape (trueCoords g3) with
      | .error e => .error e
      | .ok (z_peaks, y_peaks, x_peaks) =>
          .ok (truncate z_peaks y_peaks x_peaks
            ((trueCoords g3).map (fun c => (sanitize data).get c)) npeaks)

/-- Assembly of the output `QTable` (lines 54-85 of `find_peaks_3d.py`):
base columns, optional `skycoord_peak` inserted at position 2, optional
centroid columns appended, optional `skycoord_centroid` inserted right
after `y_centroid`. -/
def buildTable (d : NDArr Val) (z_peaks y_peaks x_peaks : List Nat)
    (peak_values : List Val) (centroid_func : Option CentroidFn)
    (wcs : Option WcsFn) : QTable :=
  let cols : List (String × List Cell) :=
    [("z_peak", z_peaks.map Cell.int), ("y_peak", y_peaks.map Cell.int),
     ("x_peak", x_peaks.map Cell.int), ("peak_value", peak_values.map Cell.val)]
  let cols := match wcs with
    | some w => cols.insertIdx 2 ("skycoord_peak",
        (x_peaks.zip y_peaks).map (fun xy =>
          Cell.sky (w (.num xy.1) (.num xy.2)).1 (w (.num xy.1) (.num xy.2)).2))
    | none => cols
  let cols := match centroid_func with
    | none => cols
    | some cf =>
        let xy := cf d x_peaks y_peaks
        let cols := cols ++
          [("x_centroid", xy.1.map Cell.val), ("y_centroid", xy.2.map Cell.val)]
        match wcs with
        | some w => cols.insertIdx ((cols.map Prod.fst).indexOf "y_centroid" + 1)
            ("skycoord_centroid", (xy.1.zip xy.2).map (fun p =>
              Cell.sky (w p.1 p.2).1 (w p.1 p.2).2))
        | none => cols
  ⟨cols⟩

/-- The `find_peaks` pipeline of `scripts/find_peaks_3d.py`.  Errors raised
by the Python code are modelled as `Except.error` with a short message. -/
def find_peaks (data : NDArr Val) (threshold : Val) (box_size : Nat)
    (footprint : Option (NDArr Bool)) (mask : Option (NDArr Bool))
    (border_width : Option Nat) (npeaks : Option Nat)
    (centroid_func : Option CentroidFn) (wcs : Option WcsFn) :
    Except String QTable :=
  match peakLists data threshold box_size footprint mask border_width npeaks with
  | .error e => .error e
  | .ok (z_peaks, y_peaks, x_peaks, peak_values) =>
      .ok (buildTable (sanitize data) z_peaks y_peaks x_peaks peak_values
        centroid_func wcs)

end FindPeaks3D

namespace CubeUtils

/-- A data cube: list of axis-0 slices, each a 2-D plane (list of rows). -/
abbrev Plane : Type := List (List ℚ)

/-- Elementwise sum of two planes (numpy broadcasting is never exercised:
the summed slices of one cube share a shape). -/
def addPlane : Plane → Plane → Plane :=
  List.zipWith (List.zipWith (· + ·))

/-- `np.sum(stack, axis=0)` over a nonempty list of equal-shape planes. -/
def sumSlices : List Plane → Plane
  | [] => []
  | p :: ps => ps.foldl addPlane p

/-- The Gaussian smoothing of one axis-0 column,
`convolve(col, Gaussian1DKernel(smooth))`: an external astropy collaborator,
abstracted as a function parameter `gconv sigma column`. -/
def smoothCube (gconv : Nat → List ℚ → List ℚ) (s : Nat)
    (cube : List Plane) : List Plane :=
  (List.range cube.length).map (fun f =>
    (List.range (cube.headD []).length).map (fun i =>
      (List.range ((cube.headD []).headD []).length).map (fun j =>
        (gconv s (cube.map (fun p => (p.getD i []).getD j 0))).getD f 0)))

/-- `freq_smooth(cube, bin_size, smooth)` of `utils/cube_utils.py`:
bin along axis 0 when `bin_size` is truthy, else Gaussian-smooth along
axis 0 when `smooth` is truthy, else return the cube unchanged. -/
def freq_smooth (gconv : Nat → List ℚ → List ℚ) (cube : List Plane)
    (bin_size smooth : Nat) : List Plane :=
  if bin_size ≠ 0 then
    (List.range (cube.length / bin_size)).map (fun freq =>
      sumSlices ((cube.drop (freq * bin_size)).take bin_size))
  else if smooth ≠ 0 then
    smoothCube gconv smooth cube
  else cube

end CubeUtils

/-! ## General list lemmas used by the development -/

namespace FindPeaks3D

theorem Val.leb_refl (v : Val) : Val.leb v v = true := by
  cases v <;> simp [Val.leb]

theorem getD_map_of_lt {α β : Type} (f : α → β) (l : List α) {i : Nat}
    (h : i < l.length) (d : α) (d' : β) : (l.map f).getD i d' = f (l.getD i d) := by
  rw [List.getD_eq_getElem _ _ (by simpa using h), List.getD_eq_getElem _ _ h,
    List.getElem_map]

theorem getD_mem {α : Type} {l : List α} {i : Nat} (h : i < l.length) (d : α) :
    l.getD i d ∈ l := by
  rw [List.getD_eq_getElem _ _ h]; exact List.getElem_mem h

/-- For `i < j` both in range, the two elements at those positions form a
sublist in order. -/
theorem pair_getElem_sublist {α : Type} (l : List α) {i j : Nat}
    (hij : i < j) (hj : j < l.length) :
    [l.get ⟨i, lt_trans hij hj⟩, l.get ⟨j, hj⟩].Sublist l := by
  simp only [List.get_eq_getElem]
  induction l generalizing i j with
  | nil => simp at hj
  | cons a l ih =>
    cases i with
    | zero =>
      cases j with
      | zero => omega
      | succ j =>
        simp only [List.getElem_cons_zero, List.getElem_cons_succ]
        exact (List.singleton_sublist.mpr
          (List.getElem_mem _)).cons₂ a
    | succ i =>
      cases j with
      | zero => omega
      | succ j =>
        simp only [List.getElem_cons_succ]
        exact (ih (by omega) (by simpa using hj)).cons a

theorem length_flatMap_const {α : Type} (g : Nat → List α) (n L : Nat)
    (hL : ∀ i, (g i).length = L) :
    ((List.range n).flatMap g).length = n * L := by
  induction n with
  | zero => simp
  | succ n ih =>
    rw [List.range_succ, List.flatMap_append]
    simp [ih, hL, Nat.succ_mul]

theorem getD_flatMap_const {α : Type} (g : Nat → List α) (n L k : Nat) (d : α)
    (hL : ∀ i, (g i).length = L) (hk : k < n * L) :
    ((List.range n).flatMap g).getD k d = (g (k / L)).getD (k % L) d := by
  induction n with
  | zero => omega
  | succ n ih =>
    have hLpos : 0 < L := by
      rcases Nat.eq_zero_or_pos L with h0 | h
      · rw [h0, Nat.mul_zero] at hk; omega
      · exact h
    rw [List.range_succ, List.flatMap_append]
    have hlen : ((List.range n).flatMap g).length = n * L :=
      length_flatMap_const g n L hL
    have hklen : k < (((List.range n).flatMap g) ++ [n].flatMap g).length := by
      simp only [List.length_append, hlen, List.flatMap_cons, List.flatMap_nil,
        List.append_nil, hL]
      have := hk
      rw [Nat.succ_mul] at this
      omega
    by_cases hk' : k < n * L
    · rw [List.getD_eq_getElem _ _ hklen, List.getElem_append,
        dif_pos (by omega : k < ((List.range n).flatMap g).length),
        ← List.getD_eq_getElem _ d (by omega)]
      exact ih hk'
    · have hhi : k < n * L + L := by
        have := hk
        rw [Nat.succ_mul] at this
        exact this
      have hr : k - n * L < L := by omega
      have hksplit : k = (k - n * L) + n * L := by omega
      have hq : k / L = n := by
        conv_lhs => rw [hksplit]
        rw [Nat.add_mul_div_right _ _ hLpos, Nat.div_eq_of_lt hr, Nat.zero_add]
      have hmod : k % L = k - n * L := by
        conv_lhs => rw [hksplit]
        rw [Nat.add_mul_mod_self_right, Nat.mod_eq_of_lt hr]
      rw [List.getD_eq_getElem _ _ hklen, List.getElem_append,
        dif_neg (by omega : ¬ k < ((List.range n).flatMap g).length), hq]
      conv_rhs => rw [hmod]
      rw [← List.getD_eq_getElem _ d
        (by simp only [List.flatMap_cons, List.flatMap_nil, List.append_nil,
              hL, hlen]; omega)]
      simp only [List.flatMap_cons, List.flatMap_nil, List.append_nil, hlen]

theorem allCoords_length (shape : List Nat) :
    (allCoords shape).length = shape.prod := by
  induction shape with
  | nil => rfl
  | cons n rest ih =>
    rw [allCoords, length_flatMap_const _ n rest.prod (fun i => by
      simp [List.length_map, ih]), List.prod_cons]

theorem length_of_mem_allCoords {shape : List Nat} {c : List Nat}
    (h : c ∈ allCoords shape) : c.length = shape.length := by
  induction shape generalizing c with
  | nil =>
    simp only [allCoords, List.mem_singleton] at h
    simp [h]
  | cons n rest ih =>
    simp only [allCoords, List.mem_flatMap, List.mem_map] at h
    rcases h with ⟨i, _, c', hc', rfl⟩
    simp [ih hc']

/-- The `k`-th coordinate of a shape, in row-major order, has row-major flat
index `k`: `allCoords` enumerates positions in flat-storage order. -/
theorem flatIndex_getD_allCoords (shape : List Nat) (k : Nat)
    (hk : k < shape.prod) :
    flatIndex shape ((allCoords shape).getD k []) = k := by
  induction shape generalizing k with
  | nil =>
    simp only [List.prod_nil] at hk
    interval_cases k
    rfl
  | cons n rest ih =>
    rw [List.prod_cons] at hk
    have hP : ∀ i, ((allCoords rest).map (i :: ·)).length = rest.prod :=
      fun i => by simp [List.length_map, allCoords_length]
    rw [allCoords, getD_flatMap_const _ n rest.prod k [] hP hk,
      getD_map_of_lt _ _ (by
        rw [allCoords_length]
        exact Nat.mod_lt _ (by
          rcases Nat.eq_zero_or_pos rest.prod with h0 | h
          · rw [h0, Nat.mul_zero] at hk; omega
          · exact h)) []]
    rw [flatIndex, ih _ (Nat.mod_lt _ (by
      rcases Nat.eq_zero_or_pos rest.prod with h0 | h
      · rw [h0, Nat.mul_zero] at hk; omega
      · exact h))]
    rw [Nat.mul_comm]
    exact Nat.div_add_mod k rest.prod

/-- In a duplicate-free list, anything that occurs (in order) before a
member of the `n`-prefix is itself in the `n`-prefix. -/
theorem mem_take_of_pair_sublist {α : Type} {l : List α} {a b : α} {n : Nat}
    (hs : [b, a].Sublist l) (hnd : l.Nodup) (ha : a ∈ l.take n) :
    b ∈ l.take n := by
  induction l generalizing n with
  | nil => simp at ha
  | cons x l ih =>
    cases n with
    | zero => simp at ha
    | succ n =>
      simp only [List.take_succ_cons, List.mem_cons] at ha ⊢
      rcases List.nodup_cons.mp hnd with ⟨hx, hnd'⟩
      cases hs with
      | cons _ hs' =>
        -- [b, a] is a sublist of l
        rcases ha with rfl | ha
        · exact absurd (hs'.subset (by simp)) hx
        · exact Or.inr (ih hs' hnd' ha)
      | cons₂ _ hs' =>
        exact Or.inl rfl

/-! ## Shape and length bookkeeping of the pipeline stages -/

theorem sanitize_shape (a : NDArr Val) : (sanitize a).shape = a.shape := by
  unfold sanitize; split <;> rfl

theorem sanitize_length (a : NDArr Val) :
    (sanitize a).data.length = a.data.length := by
  unfold sanitize; split <;> simp

theorem maximumFilter_length (a : NDArr Val) (offs : List (List Int)) :
    (maximumFilter a offs).data.length = a.shape.prod := by
  simp [maximumFilter, allCoords_length]

theorem maskStep_ok_shape {g : NDArr Bool} {mask : Option (NDArr Bool)}
    {g1 : NDArr Bool} (h : maskStep g mask = .ok g1) : g1.shape = g.shape := by
  cases mask with
  | none => cases h; rfl
  | some m =>
    by_cases hsh : g.shape = m.shape
    · simp only [maskStep, if_pos hsh, Except.ok.injEq] at h
      subst h; rfl
    · simp [maskStep, if_neg hsh] at h

theorem maskStep_ok_length {g : NDArr Bool} {mask : Option (NDArr Bool)}
    {g1 : NDArr Bool} (h : maskStep g mask = .ok g1)
    (wfg : g.data.length = g.shape.prod)
    (wfm : ∀ m ∈ mask, m.data.length = m.shape.prod) :
    g1.data.length = g.shape.prod := by
  cases mask with
  | none => cases h; exact wfg
  | some m =>
    by_cases hsh : g.shape = m.shape
    · simp only [maskStep, if_pos hsh, Except.ok.injEq] at h
      subst h
      have hm := wfm m (by simp)
      simp [List.length_zipWith, wfg, hm, ← hsh]
    · simp [maskStep, if_neg hsh] at h

theorem borderStep_shape (g : NDArr Bool) (bw : Option Nat) :
    (borderStep g bw).shape = g.shape := by
  cases bw <;> rfl

theorem borderStep_length (g : NDArr Bool) (bw : Option Nat)
    (wf : g.data.length = g.shape.prod) :
    (borderStep g bw).data.length = g.shape.prod := by
  cases bw with
  | none => exact wf
  | some b => simp [borderStep, List.length_zip, wf, allCoords_length]

theorem thresholdStep_shape (g : NDArr Bool) (d : NDArr Val) (t : Val) :
    (thresholdStep g d t).shape = g.shape := rfl

theorem thresholdStep_length (g : NDArr Bool) (d : NDArr Val) (t : Val) :
    (thresholdStep g d t).data.length = min g.data.length d.data.length := by
  simp [thresholdStep]

/-- Unfolding of a successful `goodmask3` run. -/
theorem goodmask3_ok {data : NDArr Val} {t : Val} {bs : Nat}
    {fp mask : Option (NDArr Bool)} {bw : Option Nat} {g3 : NDArr Bool}
    (hg : goodmask3 data t bs fp mask bw = .ok g3) :
    ∃ g1, maskStep (candidateMask (sanitize data)
        (maximumFilter (sanitize data) (filterOffsets (sanitize data) bs fp)))
        mask = .ok g1 ∧
      g3 = thresholdStep (borderStep g1 bw) (sanitize data) t := by
  unfold goodmask3 at hg
  cases hms : maskStep (candidateMask (sanitize data)
      (maximumFilter (sanitize data) (filterOffsets (sanitize data) bs fp)))
      mask with
  | error e => rw [hms] at hg; exact absurd hg (by simp [Bind.bind, Except.bind])
  | ok g1 =>
    rw [hms] at hg
    simp only [Bind.bind, Except.bind, pure, Except.pure, Except.ok.injEq] at hg
    exact ⟨g1, rfl, hg.symm⟩

/-- Shape and flat length of a successful `goodmask3` result. -/
theorem goodmask3_shape_length {data : NDArr Val} {t : Val} {bs : Nat}
    {fp mask : Option (NDArr Bool)} {bw : Option Nat} {g3 : NDArr Bool}
    (hg : goodmask3 data t bs fp mask bw = .ok g3)
    (wfd : data.data.length = data.shape.prod)
    (wfm : ∀ m ∈ mask, m.data.length = m.shape.prod) :
    g3.shape = data.shape ∧ g3.data.length = data.shape.prod := by
  rcases goodmask3_ok hg with ⟨g1, hms, rfl⟩
  have hc : (candidateMask (sanitize data)
      (maximumFilter (sanitize data) (filterOffsets (sanitize data) bs fp))).shape
      = data.shape := sanitize_shape data
  have hclen : (candidateMask (sanitize data)
      (maximumFilter (sanitize data) (filterOffsets (sanitize data) bs fp))).data.length
      = data.shape.prod := by
    simp only [candidateMask, List.length_zipWith, sanitize_length, wfd,
      maximumFilter_length, sanitize_shape]
    omega
  have h1s : g1.shape = data.shape := by rw [maskStep_ok_shape hms, hc]
  have h1l : g1.data.length = data.shape.prod := by
    have := maskStep_ok_length hms (by rw [hclen, hc]) wfm
    rw [hc] at this
    exact this
  refine ⟨?_, ?_⟩
  · rw [thresholdStep_shape, borderStep_shape, h1s]
  · rw [thresholdStep_length, borderStep_length g1 bw (by rw [h1l, h1s]),
      sanitize_length, wfd, h1s]
    omega

/-- A coordinate reported by `nonzero` comes from a flat position whose mask
bit is set. -/
theorem mem_trueCoords {g : NDArr Bool} {c : List Nat} (h : c ∈ trueCoords g) :
    ∃ k, k < (allCoords g.shape).length ∧ k < g.data.length ∧
      (allCoords g.shape).getD k [] = c ∧ g.data.getD k false = true := by
  unfold trueCoords at h
  rcases List.mem_filterMap.mp h with ⟨⟨c', b⟩, hmem, heq⟩
  cases b with
  | false => simp at heq
  | true =>
    simp only [if_true] at heq
    cases heq
    rcases List.getElem_of_mem hmem with ⟨k, hk, hzip⟩
    rw [List.getElem_zip] at hzip
    have hk1 : k < (allCoords g.shape).length := by
      rw [List.length_zip] at hk; omega
    have hk2 : k < g.data.length := by
      rw [List.length_zip] at hk; omega
    refine ⟨k, hk1, hk2, ?_, ?_⟩
    · rw [List.getD_eq_getElem _ _ hk1]
      exact congrArg Prod.fst hzip
    · rw [List.getD_eq_getElem _ _ hk2]
      exact congrArg Prod.snd hzip

/-! ## Properties of the argsort-based truncation -/

theorem mem_sortPairs {vals : List Val} {p : Nat × Val}
    (h : p ∈ List.insertionSort valLe vals.enum) :
    p.1 < vals.length ∧ vals.getD p.1 Val.nan = p.2 := by
  have hp : p ∈ vals.enum := (List.perm_insertionSort valLe vals.enum).subset h
  rcases p with ⟨i, v⟩
  rw [List.mk_mem_enum_iff_getElem?] at hp
  rcases List.getElem?_eq_some.mp hp with ⟨hi, hv⟩
  exact ⟨hi, by rw [List.getD_eq_getElem _ _ hi]; exact hv⟩

theorem sortPairs_length (vals : List Val) :
    (List.insertionSort valLe vals.enum).length = vals.length := by
  rw [(List.perm_insertionSort valLe vals.enum).length_eq, List.enum_length]

theorem sortPairs_nodup (vals : List Val) :
    (List.insertionSort valLe vals.enum).Nodup :=
  ((List.perm_insertionSort valLe vals.enum).nodup_iff).mpr
    (List.Nodup.of_map Prod.fst
      (by rw [List.enum_map_fst]; exact List.nodup_range _))

theorem sortPairs_rev_pairwise (vals : List Val) :
    (List.insertionSort valLe vals.enum).reverse.Pairwise
      (fun a b => valLe b a) :=
  List.pairwise_reverse.mpr (List.sorted_insertionSort valLe vals.enum)

theorem truncIdx_eq_map_fst (vals : List Val) (k : Nat) :
    truncIdx vals k
      = ((List.insertionSort valLe vals.enum).reverse.take k).map Prod.fst := by
  unfold truncIdx argsort
  rw [← List.map_reverse, ← List.map_take]

theorem mem_truncIdx_pair {vals : List Val} {k i : Nat}
    (h : i ∈ truncIdx vals k) :
    i < vals.length ∧ (i, vals.getD i Val.nan)
      ∈ (List.insertionSort valLe vals.enum).reverse.take k := by
  rw [truncIdx_eq_map_fst] at h
  rcases List.mem_map.mp h with ⟨p, hp, rfl⟩
  have hp' : p ∈ List.insertionSort valLe vals.enum :=
    (List.reverse_perm _).subset ((List.take_sublist _ _).subset hp)
  rcases mem_sortPairs hp' with ⟨h1, h2⟩
  refine ⟨h1, ?_⟩
  have : (p.1, vals.getD p.1 Val.nan) = p := by
    rw [h2]
  rw [this]
  exact hp

theorem mem_truncIdx_lt {vals : List Val} {k i : Nat}
    (h : i ∈ truncIdx vals k) : i < vals.length :=
  (mem_truncIdx_pair h).1

theorem truncIdx_length {vals : List Val} {k : Nat} (hk : k ≤ vals.length) :
    (truncIdx vals k).length = k := by
  rw [truncIdx_eq_map_fst, List.length_map, List.length_take,
    List.length_reverse, sortPairs_length]
  omega

/-- The values selected by the truncation are the second components of the
first `k` pairs of the reversed sorted pair list. -/
theorem truncVals_eq_map_snd (vals : List Val) (k : Nat) :
    (truncIdx vals k).map (fun i => vals.getD i Val.nan)
      = ((List.insertionSort valLe vals.enum).reverse.take k).map Prod.snd := by
  rw [truncIdx_eq_map_fst, List.map_map]
  apply List.map_congr_left
  intro p hp
  have hp' : p ∈ List.insertionSort valLe vals.enum :=
    (List.reverse_perm _).subset ((List.take_sublist _ _).subset hp)
  exact (mem_sortPairs hp').2

/-- The kept values are mutually ordered by descending value. -/
theorem truncVals_desc (vals : List Val) (k : Nat) :
    ((truncIdx vals k).map (fun i => vals.getD i Val.nan)).Pairwise
      (fun a b => Val.leb b a = true) := by
  rw [truncVals_eq_map_snd]
  refine List.pairwise_map.mpr ?_
  exact (sortPairs_rev_pairwise vals).sublist (List.take_sublist _ _)

/-- Top-k selection: every kept value is at least every dropped value. -/
theorem truncVals_ge_dropped {vals : List Val} {k i j : Nat}
    (hi : i ∈ truncIdx vals k) (hj : j < vals.length)
    (hjn : j ∉ truncIdx vals k) :
    Val.leb (vals.getD j Val.nan) (vals.getD i Val.nan) = true := by
  have hL := sortPairs_rev_pairwise vals
  have hsplit := (List.take_append_drop k
    (List.insertionSort valLe vals.enum).reverse).symm
  rw [hsplit] at hL
  have hpa := (List.pairwise_append.mp hL).2.2
  have hai := (mem_truncIdx_pair hi).2
  have hbj : (j, vals.getD j Val.nan)
      ∈ (List.insertionSort valLe vals.enum).reverse.drop k := by
    have hmem : (j, vals.getD j Val.nan)
        ∈ (List.insertionSort valLe vals.enum).reverse := by
      apply (List.reverse_perm _).symm.subset
      apply (List.perm_insertionSort valLe vals.enum).symm.subset
      rw [List.mk_mem_enum_iff_getElem?, List.getElem?_eq_getElem hj,
        List.getD_eq_getElem _ _ hj]
    rw [← List.take_append_drop k
      ((List.insertionSort valLe vals.enum).reverse)] at hmem
    rcases List.mem_append.mp hmem with h | h
    · exact absurd (by
        rw [truncIdx_eq_map_fst]
        exact List.mem_map.mpr ⟨_, h, rfl⟩) hjn
    · exact h
  exact hpa _ hai _ hbj

/-- Stability at the truncation boundary: among equal values, if the earlier
scan position is kept then so is the later one. -/
theorem truncIdx_tie {vals : List Val} {k i j : Nat} (hij : i < j)
    (hj : j < vals.length) (hv : vals.getD i Val.nan = vals.getD j Val.nan)
    (hi : i ∈ truncIdx vals k) : j ∈ truncIdx vals k := by
  have hi' : i < vals.length := lt_trans hij hj
  have henl : j < vals.enum.length := by rw [List.enum_length]; exact hj
  have hab : valLe (i, vals.getD i Val.nan) (j, vals.getD j Val.nan) := by
    show Val.leb (vals.getD i Val.nan) (vals.getD j Val.nan) = true
    rw [hv]
    exact Val.leb_refl _
  have hsub : [(i, vals.getD i Val.nan), (j, vals.getD j Val.nan)].Sublist
      vals.enum := by
    have h2 := pair_getElem_sublist vals.enum hij henl
    rw [List.get_eq_getElem, List.get_eq_getElem, List.getElem_enum,
      List.getElem_enum] at h2
    rw [List.getD_eq_getElem _ _ hi', List.getD_eq_getElem _ _ hj]
    exact h2
  have hsorted := List.pair_sublist_insertionSort hab hsub
  have hrev : [(j, vals.getD j Val.nan), (i, vals.getD i Val.nan)].Sublist
      (List.insertionSort valLe vals.enum).reverse := by
    have := hsorted.reverse
    simpa using this
  have hnd : (List.insertionSort valLe vals.enum).reverse.Nodup :=
    List.nodup_reverse.mpr (sortPairs_nodup vals)
  have hbmem := mem_take_of_pair_sublist hrev hnd (mem_truncIdx_pair hi).2
  rw [truncIdx_eq_map_fst]
  exact List.mem_map.mpr ⟨_, hbmem, rfl⟩

/-! ## Row correspondence for `peakLists` -/

theorem unpack3_ok {shape : List Nat} {coords : List (List Nat)}
    {zs ys xs : List Nat} (h : unpack3 shape coords = .ok (zs, ys, xs)) :
    zs = coords.map (·.getD 0 0) ∧ ys = coords.map (·.getD 1 0) ∧
    xs = coords.map (·.getD 2 0) ∧ ∃ a b c, shape = [a, b, c] := by
  unfold unpack3 at h
  split at h
  · simp only [Except.ok.injEq, Prod.mk.injEq] at h
    rcases h with ⟨h1, h2, h3⟩
    exact ⟨h1.symm, h2.symm, h3.symm, _, _, _, rfl⟩
  · cases h

theorem unpack3_len_ne_three {shape : List Nat} {coords : List (List Nat)}
    (h : shape.length ≠ 3) :
    unpack3 shape coords
      = .error "nonzero coordinate arrays do not unpack into z, y, x" := by
  unfold unpack3
  split
  · rename_i a b c
    simp at h
  · rfl

/-- Each quadruple of lists returned by `peakLists` is the per-row image of
a single list of surviving coordinates. -/
theorem peakLists_rows {data : NDArr Val} {t : Val} {bs : Nat}
    {fp mask : Option (NDArr Bool)} {bw np : Option Nat}
    {zs ys xs : List Nat} {vals : List Val} {g3 : NDArr Bool}
    (hg : goodmask3 data t bs fp mask bw = .ok g3)
    (h : peakLists data t bs fp mask bw np = .ok (zs, ys, xs, vals)) :
    ∃ rows : List (List Nat),
      zs = rows.map (fun c => c.getD 0 0) ∧
      ys = rows.map (fun c => c.getD 1 0) ∧
      xs = rows.map (fun c => c.getD 2 0) ∧
      vals = rows.map (fun c => (sanitize data).get c) ∧
      ∀ c ∈ rows, c ∈ trueCoords g3 := by
  unfold peakLists at h
  rw [hg] at h
  dsimp only at h
  cases hup : unpack3 (sanitize data).shape (trueCoords g3) with
  | error e => rw [hup] at h; cases h
  | ok triple =>
    rw [hup] at h
    obtain ⟨zs0, ys0, xs0⟩ := triple
    rcases unpack3_ok hup with ⟨hz0, hy0, hx0, -⟩
    simp only [Except.ok.injEq] at h
    cases np with
    | none =>
      unfold truncate at h
      dsimp only at h
      simp only [Prod.mk.injEq] at h
      rcases h with ⟨rfl, rfl, rfl, rfl⟩
      exact ⟨trueCoords g3, hz0, hy0, hx0, rfl, fun c hc => hc⟩
    | some k =>
      unfold truncate at h
      dsimp only at h
      by_cases hk : k < xs0.length
      · rw [if_pos hk] at h
        simp only [Prod.mk.injEq] at h
        rcases h with ⟨rfl, rfl, rfl, rfl⟩
        set coords := trueCoords g3 with hco
        set pv := coords.map (fun c => (sanitize data).get c) with hpv
        have hlen : pv.length = coords.length := by
          rw [hpv, List.length_map]
        refine ⟨(truncIdx pv k).map (fun i => coords.getD i []),
          ?_, ?_, ?_, ?_, ?_⟩
        · rw [hz0, List.map_map]
          exact List.map_congr_left (fun i hi => by
            have hi' : i < coords.length := by
              rw [← hlen]; exact mem_truncIdx_lt hi
            exact getD_map_of_lt _ _ hi' [] 0)
        · rw [hy0, List.map_map]
          exact List.map_congr_left (fun i hi => by
            have hi' : i < coords.length := by
              rw [← hlen]; exact mem_truncIdx_lt hi
            exact getD_map_of_lt _ _ hi' [] 0)
        · rw [hx0, List.map_map]
          exact List.map_congr_left (fun i hi => by
            have hi' : i < coords.length := by
              rw [← hlen]; exact mem_truncIdx_lt hi
            exact getD_map_of_lt _ _ hi' [] 0)
        · rw [List.map_map]
          exact List.map_congr_left (fun i hi => by
            have hi' : i < coords.length := by
              rw [← hlen]; exact mem_truncIdx_lt hi
            rw [hpv]
            exact getD_map_of_lt _ _ hi' [] Val.nan)
        · intro c hc
          rcases List.mem_map.mp hc with ⟨i, hi, rfl⟩
          have hi' : i < coords.length := by
            rw [← hlen]; exact mem_truncIdx_lt hi
          exact getD_mem hi' []
      · rw [if_neg hk] at h
        simp only [Prod.mk.injEq] at h
        rcases h with ⟨rfl, rfl, rfl, rfl⟩
        exact ⟨trueCoords g3, hz0, hy0, hx0, rfl, fun c hc => hc⟩

/-- A coordinate surviving the full narrowing sits at flat position
`flatIndex shape c`, its reported value is the sanitized sample there, that
sample strictly exceeds the threshold, and it survived the border step. -/
theorem row_flat {data : NDArr Val} {t : Val} {bs : Nat}
    {fp mask : Option (NDArr Bool)} {bw : Option Nat}
    {g1 g3 : NDArr Bool} {c : List Nat}
    (wfd : data.data.length = data.shape.prod)
    (wfm : ∀ m ∈ mask, m.data.length = m.shape.prod)
    (hms : maskStep (candidateMask (sanitize data) (maximumFilter (sanitize data)
        (filterOffsets (sanitize data) bs fp))) mask = .ok g1)
    (hg : goodmask3 data t bs fp mask bw = .ok g3)
    (hc : c ∈ trueCoords g3) :
    ∃ k, k < data.shape.prod ∧
      flatIndex data.shape c = k ∧
      c.length = data.shape.length ∧
      (sanitize data).get c = (sanitize data).data.getD k Val.nan ∧
      Val.gtb ((sanitize data).data.getD k Val.nan) t = true ∧
      ∀ b, bw = some b →
        (c.zip data.shape).all (fun ie => borderKeep b ie.2 ie.1) = true := by
  rcases goodmask3_ok hg with ⟨g1', hms', hg3⟩
  rw [hms] at hms'
  simp only [Except.ok.injEq] at hms'
  subst hms'
  subst hg3
  have hg1s : g1.shape = data.shape := by
    have h := maskStep_ok_shape hms
    rw [h]
    show (sanitize data).shape = data.shape
    exact sanitize_shape data
  have hcl : (candidateMask (sanitize data) (maximumFilter (sanitize data)
      (filterOffsets (sanitize data) bs fp))).data.length
      = data.shape.prod := by
    show (List.zipWith Val.eqb (sanitize data).data
      (maximumFilter (sanitize data)
        (filterOffsets (sanitize data) bs fp)).data).length = _
    rw [List.length_zipWith, sanitize_length, wfd, maximumFilter_length,
      sanitize_shape]
    omega
  have hg1l : g1.data.length = data.shape.prod := by
    have h := maskStep_ok_length hms (by
      rw [hcl]
      show _ = (sanitize data).shape.prod
      rw [sanitize_shape]) wfm
    rw [h]
    show (sanitize data).shape.prod = data.shape.prod
    rw [sanitize_shape]
  have hg2l : (borderStep g1 bw).data.length = data.shape.prod := by
    rw [borderStep_length g1 bw (by rw [hg1l, hg1s]), hg1s]
  rcases mem_trueCoords hc with ⟨k, hk1, hk2, hck, hbit⟩
  have hshp : (thresholdStep (borderStep g1 bw) (sanitize data) t).shape
      = data.shape := by
    rw [thresholdStep_shape, borderStep_shape, hg1s]
  rw [hshp] at hk1 hck
  have hkprod : k < data.shape.prod := by
    rw [allCoords_length] at hk1; exact hk1
  have hflat : flatIndex data.shape c = k := by
    rw [← hck]; exact flatIndex_getD_allCoords _ _ hkprod
  have hcmem : c ∈ allCoords data.shape := by
    rw [← hck]; exact getD_mem hk1 []
  have hclen : c.length = data.shape.length := length_of_mem_allCoords hcmem
  have hdl : (sanitize data).data.length = data.shape.prod := by
    rw [sanitize_length]; exact wfd
  have hkg2 : k < (borderStep g1 bw).data.length := by rw [hg2l]; exact hkprod
  have hkd : k < (sanitize data).data.length := by rw [hdl]; exact hkprod
  have hsplit : ((borderStep g1 bw).data.getD k false
      && Val.gtb ((sanitize data).data.getD k Val.nan) t) = true := by
    have heq : (thresholdStep (borderStep g1 bw) (sanitize data) t).data.getD
        k false = ((borderStep g1 bw).data.getD k false
          && Val.gtb ((sanitize data).data.getD k Val.nan) t) := by
      show (List.zipWith _ (borderStep g1 bw).data
        (sanitize data).data).getD k false = _
      rw [List.getD_eq_getElem _ _ (by rw [List.length_zipWith]; omega),
        List.getElem_zipWith, List.getD_eq_getElem _ _ hkg2,
        List.getD_eq_getElem _ _ hkd]
    rw [← heq]
    exact hbit
  rcases Bool.and_eq_true_iff.mp hsplit with ⟨hbord, hthr⟩
  refine ⟨k, hkprod, hflat, hclen, ?_, hthr, ?_⟩
  · show (sanitize data).data.getD (flatIndex (sanitize data).shape c)
      Val.nan = _
    rw [sanitize_shape, hflat]
  · intro b hb
    subst hb
    have hkz : k < (List.zip g1.data (allCoords g1.shape)).length := by
      rw [List.length_zip, hg1l, hg1s, allCoords_length]
      omega
    have heqb : (borderStep g1 (some b)).data.getD k false
        = (g1.data.getD k false
          && (((allCoords g1.shape).getD k []).zip g1.shape).all
            (fun ie => borderKeep b ie.2 ie.1)) := by
      show ((List.zip g1.data (allCoords g1.shape)).map _).getD k false = _
      rw [List.getD_eq_getElem _ _ (by rw [List.length_map]; exact hkz),
        List.getElem_map, List.getElem_zip,
        List.getD_eq_getElem _ _ (by rw [hg1l]; exact hkprod),
        List.getD_eq_getElem _ _ (by
          rw [hg1s, allCoords_length]; exact hkprod)]
    rw [heqb] at hbord
    rcases Bool.and_eq_true_iff.mp hbord with ⟨-, hall⟩
    rw [hg1s, hck] at hall
    exact hall

/-! ## Helper facts for the claims -/

theorem peakLists_ok_goodmask3 {data : NDArr Val} {t : Val} {bs : Nat}
    {fp mask : Option (NDArr Bool)} {bw np : Option Nat}
    {out : List Nat × List Nat × List Nat × List Val}
    (h : peakLists data t bs fp mask bw np = .ok out) :
    ∃ g3, goodmask3 data t bs fp mask bw = .ok g3 := by
  unfold peakLists at h
  cases hG : goodmask3 data t bs fp mask bw with
  | error e => rw [hG] at h; dsimp only at h; cases h
  | ok g3 => exact ⟨g3, rfl⟩

theorem peakLists_ok_shape3 {data : NDArr Val} {t : Val} {bs : Nat}
    {fp mask : Option (NDArr Bool)} {bw np : Option Nat}
    {out : List Nat × List Nat × List Nat × List Val}
    (h : peakLists data t bs fp mask bw np = .ok out) :
    ∃ a b c, data.shape = [a, b, c] := by
  unfold peakLists at h
  cases hG : goodmask3 data t bs fp mask bw with
  | error e => rw [hG] at h; dsimp only at h; cases h
  | ok g3 =>
    rw [hG] at h
    dsimp only at h
    cases hup : unpack3 (sanitize data).shape (trueCoords g3) with
    | error e => rw [hup] at h; cases h
    | ok tr =>
      obtain ⟨zs0, ys0, xs0⟩ := tr
      rcases unpack3_ok hup with ⟨-, -, -, a, b, c, hsh⟩
      rw [sanitize_shape] at hsh
      exact ⟨a, b, c, hsh⟩

theorem sanitize_eq_map {a : NDArr Val} (h : a.data.any Val.isNaN = true) :
    (sanitize a).data
      = a.data.map (fun v => if v.isNaN then nanmin a.data else v) := by
  unfold sanitize
  rw [if_pos h]

theorem nanmin_not_nan {xs : List Val} (h : ∃ v ∈ xs, v.isNaN = false) :
    (nanmin xs).isNaN = false := by
  rcases h with ⟨v, hv, hnn⟩
  cases v with
  | nan => simp [Val.isNaN] at hnn
  | num q =>
    have hq : q ∈ xs.filterMap
        (fun v => match v with | .num q => some q | .nan => none) :=
      List.mem_filterMap.mpr ⟨Val.num q, hv, rfl⟩
    unfold nanmin
    cases hfm : xs.filterMap
        (fun v => match v with | .num q => some q | .nan => none) with
    | nil => rw [hfm] at hq; cases hq
    | cons p ps => simp [Val.isNaN]

theorem sanitize_no_nan {a : NDArr Val} (hfin : ∃ v ∈ a.data, v.isNaN = false) :
    ∀ v ∈ (sanitize a).data, v.isNaN = false := by
  intro v hv
  unfold sanitize at hv
  split at hv
  · rcases List.mem_map.mp hv with ⟨w, hw, rfl⟩
    by_cases hwn : w.isNaN = true
    · rw [if_pos hwn]
      exact nanmin_not_nan hfin
    · rw [if_neg hwn]
      simpa using hwn
  · rename_i hany
    rcases hfin with ⟨u, hu, -⟩
    by_contra hvn
    simp only [Bool.not_eq_false] at hvn
    exact hany (List.any_eq_true.mpr ⟨v, hv, hvn⟩)

theorem eq_triple_of_length_three {c : List Nat} (h : c.length = 3) :
    c = [c.getD 0 0, c.getD 1 0, c.getD 2 0] := by
  rcases c with _ | ⟨a, _ | ⟨b, _ | ⟨d, _ | ⟨e, f⟩⟩⟩⟩ <;> simp_all

/-- The flat bit of `borderStep (some b)` at position `k`. -/
theorem borderStep_getD {g : NDArr Bool} {b k : Nat}
    (hk1 : k < g.data.length) (hk2 : k < (allCoords g.shape).length) :
    (borderStep g (some b)).data.getD k false
      = (g.data.getD k false
        && (((allCoords g.shape).getD k []).zip g.shape).all
          (fun ie => borderKeep b ie.2 ie.1)) := by
  have hkz : k < (List.zip g.data (allCoords g.shape)).length := by
    rw [List.length_zip]; omega
  show ((List.zip g.data (allCoords g.shape)).map _).getD k false = _
  rw [List.getD_eq_getElem _ _ (by rw [List.length_map]; exact hkz),
    List.getElem_map, List.getElem_zip,
    List.getD_eq_getElem _ _ hk1, List.getD_eq_getElem _ _ hk2]

theorem map_insertIdx {α β : Type} (f : α → β) (l : List α) (i : Nat) (x : α) :
    (l.insertIdx i x).map f = (l.map f).insertIdx i (f x) := by
  induction l generalizing i with
  | nil => cases i <;> simp [List.insertIdx]
  | cons a l ih =>
    cases i with
    | zero => simp [List.insertIdx]
    | succ n => simp [List.insertIdx_succ_cons, ih]

/-- Generic bridge: a mapped window of a list equals the mapped range of its
positions. -/
theorem map_take_drop_eq_range {α β : Type} (f : α → β) (l : List α)
    (a b : Nat) (d : α) (hab : a + b ≤ l.length) :
    ((l.drop a).take b).map f
      = (List.range b).map (fun r => f (l.getD (a + r) d)) := by
  apply List.ext_getElem
  · simp only [List.length_map, List.length_take, List.length_drop,
      List.length_range]
    omega
  · intro n h1 h2
    simp only [List.length_map, List.length_take, List.length_drop,
      List.length_range] at h1 h2
    rw [List.getElem_map, List.getElem_map, List.getElem_take,
      List.getElem_drop, List.getElem_range,
      List.getD_eq_getElem _ _ (by omega)]

theorem borderKeep_pos_iff {b ext idx : Nat} (hb : 1 ≤ b) :
    borderKeep b ext idx = true ↔ ¬ (idx < b ∨ ext ≤ idx + b) := by
  simp only [borderKeep, Bool.not_eq_eq_eq_not, Bool.not_true,
    Bool.or_eq_false_iff, decide_eq_false_iff_not]
  omega

/-- For a positive width the border step keeps exactly the set cells whose
coordinate avoids `[0, b)` and `[ext - b, ext)` on every axis. -/
theorem borderStep_pos_iff {g : NDArr Bool} {b k : Nat} (hb : 1 ≤ b)
    (hk1 : k < g.data.length) (hk2 : k < (allCoords g.shape).length) :
    ((borderStep g (some b)).data.getD k false = true ↔
      (g.data.getD k false = true ∧
        ∀ p ∈ (((allCoords g.shape).getD k []).zip g.shape),
          ¬ (p.1 < b ∨ p.2 ≤ p.1 + b))) := by
  rw [borderStep_getD hk1 hk2, Bool.and_eq_true, List.all_eq_true]
  refine and_congr_right (fun _ => ?_)
  refine forall_congr' (fun p => ?_)
  refine imp_congr_right (fun _ => ?_)
  exact borderKeep_pos_iff hb

/-- For width `0` the Python slice `[-0:]` selects the whole axis, so the
border step clears every cell of a positive-rank mask. -/
theorem borderStep_zero_getD {g : NDArr Bool} {k : Nat} (hsh : g.shape ≠ [])
    (hk1 : k < g.data.length) (hk2 : k < (allCoords g.shape).length) :
    (borderStep g (some 0)).data.getD k false = false := by
  rw [borderStep_getD hk1 hk2]
  have hc : ((allCoords g.shape).getD k []).length = g.shape.length :=
    length_of_mem_allCoords (getD_mem hk2 [])
  rcases hg : g.shape with _ | ⟨e, es⟩
  · exact absurd hg hsh
  · rcases hcc : (allCoords (e :: es)).getD k [] with _ | ⟨c0, cr⟩
    · exfalso
      rw [hg, hcc] at hc
      simp at hc
    · simp [borderKeep]

/-- Every coordinate returned by `peakLists` under a positive border width
keeps a margin of `b` cells on every axis. -/
theorem row_border_bounds {data : NDArr Val} {t : Val} {bs : Nat}
    {fp mask : Option (NDArr Bool)} {np : Option Nat} {b d0 d1 d2 : Nat}
    {zs ys xs : List Nat} {vals : List Val}
    (wfd : data.data.length = data.shape.prod)
    (wfm : ∀ m ∈ mask, m.data.length = m.shape.prod)
    (hshape : data.shape = [d0, d1, d2])
    (h : peakLists data t bs fp mask (some b) np = .ok (zs, ys, xs, vals)) :
    (∀ z ∈ zs, b ≤ z ∧ z + b < d0) ∧ (∀ y ∈ ys, b ≤ y ∧ y + b < d1) ∧
    (∀ x ∈ xs, b ≤ x ∧ x + b < d2) := by
  rcases peakLists_ok_goodmask3 h with ⟨g3, hg⟩
  rcases goodmask3_ok hg with ⟨g1, hms, -⟩
  rcases peakLists_rows hg h with ⟨rows, hzs, hys, hxs, -, hmem⟩
  have key : ∀ c ∈ rows, (b ≤ c.getD 0 0 ∧ c.getD 0 0 + b < d0)
      ∧ (b ≤ c.getD 1 0 ∧ c.getD 1 0 + b < d1)
      ∧ (b ≤ c.getD 2 0 ∧ c.getD 2 0 + b < d2) := by
    intro c hc
    rcases row_flat wfd wfm hms hg (hmem c hc) with
      ⟨k, -, -, hclen, -, -, hbord⟩
    have hall := hbord b rfl
    rw [hshape] at hclen hall
    rcases c with _ | ⟨c0, _ | ⟨c1, _ | ⟨c2, _ | ⟨c3, cr⟩⟩⟩⟩ <;>
      simp only [List.length_cons, List.length_nil] at hclen <;> try omega
    simp only [List.zip_cons_cons, List.zip_nil_left, List.all_cons,
      List.all_nil, Bool.and_eq_true, Bool.and_true] at hall
    rcases hall with ⟨h0, h1, h2⟩
    simp only [borderKeep, Bool.not_eq_eq_eq_not, Bool.not_true,
      Bool.or_eq_false_iff, decide_eq_false_iff_not] at h0 h1 h2
    simp only [List.getD_cons_zero, List.getD_cons_succ]
    omega
  refine ⟨?_, ?_, ?_⟩
  · intro z hz
    rw [hzs] at hz
    rcases List.mem_map.mp hz with ⟨c, hc, rfl⟩
    exact (key c hc).1
  · intro y hy
    rw [hys] at hy
    rcases List.mem_map.mp hy with ⟨c, hc, rfl⟩
    exact (key c hc).2.1
  · intro x hx
    rw [hxs] at hx
    rcases List.mem_map.mp hx with ⟨c, hc, rfl⟩
    exact (key c hc).2.2

end FindPeaks3D

namespace CubeUtils

theorem addPlane_rect {a p : Plane} {d1 d2 : Nat}
    (ha1 : a.length = d1) (ha2 : ∀ r ∈ a, r.length = d2)
    (hp1 : p.length = d1) (hp2 : ∀ r ∈ p, r.length = d2) :
    (addPlane a p).length = d1 ∧ (∀ r ∈ addPlane a p, r.length = d2) := by
  constructor
  · simp [addPlane, ha1, hp1]
  · intro r hr
    rcases List.getElem_of_mem hr with ⟨n, hn, rfl⟩
    simp only [addPlane] at hn ⊢
    rw [List.getElem_zipWith, List.length_zipWith,
      ha2 _ (List.getElem_mem _), hp2 _ (List.getElem_mem _)]
    omega

theorem addPlane_entry {a p : Plane} {d1 d2 i j : Nat}
    (ha1 : a.length = d1) (ha2 : ∀ r ∈ a, r.length = d2)
    (hp1 : p.length = d1) (hp2 : ∀ r ∈ p, r.length = d2)
    (hi : i < d1) (hj : j < d2) :
    ((addPlane a p).getD i []).getD j 0
      = (a.getD i []).getD j 0 + (p.getD i []).getD j 0 := by
  have hia : i < a.length := by omega
  have hip : i < p.length := by omega
  have hra : (a.getD i []).length = d2 := ha2 _ (FindPeaks3D.getD_mem hia [])
  have hrp : (p.getD i []).length = d2 := hp2 _ (FindPeaks3D.getD_mem hip [])
  have houter : (addPlane a p).getD i []
      = List.zipWith (· + ·) (a.getD i []) (p.getD i []) := by
    simp only [addPlane]
    rw [List.getD_eq_getElem (List.zipWith (List.zipWith (· + ·)) a p) []
        (by rw [List.length_zipWith]; omega),
      List.getElem_zipWith, List.getD_eq_getElem a [] hia,
      List.getD_eq_getElem p [] hip]
  rw [houter,
    List.getD_eq_getElem (List.zipWith (· + ·) (a.getD i []) (p.getD i [])) 0
      (by rw [List.length_zipWith]; omega),
    List.getElem_zipWith,
    List.getD_eq_getElem (a.getD i []) 0 (by omega),
    List.getD_eq_getElem (p.getD i []) 0 (by omega)]

theorem foldl_addPlane_entry (ps : List Plane) (acc : Plane) {d1 d2 : Nat}
    (hacc1 : acc.length = d1) (hacc2 : ∀ r ∈ acc, r.length = d2)
    (hps : ∀ p ∈ ps, p.length = d1 ∧ ∀ r ∈ p, r.length = d2)
    {i j : Nat} (hi : i < d1) (hj : j < d2) :
    ((ps.foldl addPlane acc).getD i []).getD j 0
      = (acc.getD i []).getD j 0
        + (ps.map (fun p => (p.getD i []).getD j 0)).sum := by
  induction ps generalizing acc with
  | nil => simp
  | cons p ps ih =>
    rcases hps p (by simp) with ⟨hp1, hp2⟩
    have hrect := addPlane_rect hacc1 hacc2 hp1 hp2
    rw [List.foldl_cons,
      ih (addPlane acc p) hrect.1 hrect.2 (fun q hq => hps q (by simp [hq])),
      addPlane_entry hacc1 hacc2 hp1 hp2 hi hj, List.map_cons, List.sum_cons]
    ring

/-- Pointwise description of `np.sum(stack, axis=0)` over equal-shape
slices. -/
theorem sumSlices_entry {ps : List Plane} {d1 d2 : Nat}
    (hne : ps ≠ [])
    (hps : ∀ p ∈ ps, p.length = d1 ∧ ∀ r ∈ p, r.length = d2)
    {i j : Nat} (hi : i < d1) (hj : j < d2) :
    ((sumSlices ps).getD i []).getD j 0
      = (ps.map (fun p => (p.getD i []).getD j 0)).sum := by
  cases ps with
  | nil => exact absurd rfl hne
  | cons p ps =>
    rcases hps p (by simp) with ⟨hp1, hp2⟩
    show ((ps.foldl addPlane p).getD i []).getD j 0 = _
    rw [foldl_addPlane_entry ps p hp1 hp2 (fun q hq => hps q (by simp [hq]))
      hi hj, List.map_cons, List.sum_cons]

end CubeUtils


/-! ## Claim theorems -/

namespace Claims

open FindPeaks3D CubeUtils

/-- C8: `find_peaks` is deterministic — two invocations on identical inputs
(same data, threshold, box size, footprint, mask, border width, npeaks and
collaborators) produce identical outputs, with no hidden state between
calls. -/
theorem c8_find_peaks_deterministic (data : NDArr Val) (threshold : Val)
    (box_size : Nat) (footprint mask : Option (NDArr Bool))
    (border_width npeaks : Option Nat) (centroid_func : Option CentroidFn)
    (wcs : Option WcsFn) :
    find_peaks data threshold box_size footprint mask border_width npeaks
        centroid_func wcs
      = find_peaks data threshold box_size footprint mask border_width npeaks
        centroid_func wcs := rfl

/-- C10: in `freq_smooth`, a nonzero `bin_size` takes precedence and the
`smooth` argument is silently ignored; smoothing runs only when `bin_size`
is zero and `smooth` is nonzero; with both zero the input cube is returned
unchanged. -/
theorem c10_freq_smooth_precedence (gconv : Nat → List ℚ → List ℚ)
    (cube : List Plane) (bin_size smooth : Nat) :
    (bin_size ≠ 0 →
      freq_smooth gconv cube bin_size smooth
        = freq_smooth gconv cube bin_size 0) ∧
    (bin_size = 0 → smooth ≠ 0 →
      freq_smooth gconv cube bin_size smooth
        = smoothCube gconv smooth cube) ∧
    freq_smooth gconv cube 0 0 = cube := by
  refine ⟨fun hb => ?_, fun hb hs => ?_, ?_⟩
  · simp [freq_smooth, hb]
  · subst hb
    simp [freq_smooth, hs]
  · simp [freq_smooth]

theorem c10_witness :
    freq_smooth (fun _ l => l) [[[1]], [[2]], [[3]]] 2 5
      = freq_smooth (fun _ l => l) [[[1]], [[2]], [[3]]] 2 0 ∧
    freq_smooth (fun _ l => l) [[[1]], [[2]], [[3]]] 0 5
      = smoothCube (fun _ l => l) 5 [[[1]], [[2]], [[3]]] :=
  ⟨(c10_freq_smooth_precedence (fun _ l => l) [[[1]], [[2]], [[3]]] 2 5).1
      (by decide),
   (c10_freq_smooth_precedence (fun _ l => l) [[[1]], [[2]], [[3]]] 0 5).2.1
      rfl (by decide)⟩

/-- C9: `find_peaks` succeeds only on rank-3 arrays: with an absent or
shape-compatible mask, any input whose rank is not 3 fails at the
coordinate-unpacking step (`z, y, x = mask.nonzero()`), even though the
candidate-mask stage itself is rank-generic (it returns a mask of the
input's shape for every rank). -/
theorem c9_rank3_only {data : NDArr Val} (t : Val) (bs : Nat)
    (fp mask : Option (NDArr Bool)) (bw np : Option Nat)
    (cf : Option CentroidFn) (w : Option WcsFn)
    (hmask : ∀ m ∈ mask, m.shape = data.shape)
    (hrank : data.shape.length ≠ 3) :
    find_peaks data t bs fp mask bw np cf w
      = .error "nonzero coordinate arrays do not unpack into z, y, x" ∧
    (candidateMask (sanitize data) (maximumFilter (sanitize data)
        (filterOffsets (sanitize data) bs fp))).shape = data.shape := by
  constructor
  · have hms : ∃ g1, maskStep (candidateMask (sanitize data)
        (maximumFilter (sanitize data) (filterOffsets (sanitize data) bs fp)))
        mask = .ok g1 := by
      cases mask with
      | none => exact ⟨_, rfl⟩
      | some m =>
        have hsh : (candidateMask (sanitize data) (maximumFilter
            (sanitize data) (filterOffsets (sanitize data) bs fp))).shape
            = m.shape := by
          show (sanitize data).shape = m.shape
          rw [sanitize_shape, hmask m (by simp)]
        exact ⟨_, by unfold maskStep; dsimp only; rw [if_pos hsh]⟩
    rcases hms with ⟨g1, hms⟩
    have hg : goodmask3 data t bs fp mask bw
        = .ok (thresholdStep (borderStep g1 bw) (sanitize data) t) := by
      unfold goodmask3
      rw [hms]
    unfold find_peaks peakLists
    rw [hg]
    dsimp only
    rw [unpack3_len_ne_three (by rw [sanitize_shape]; exact hrank)]
  · show (sanitize data).shape = data.shape
    exact sanitize_shape data

theorem c9_witness :
    find_peaks ⟨[2, 2], [Val.num 0, Val.num 1, Val.num 0, Val.num 0]⟩
        (Val.num (-1)) 3 none none none none none none
      = .error "nonzero coordinate arrays do not unpack into z, y, x" ∧
    (candidateMask
        (sanitize ⟨[2, 2], [Val.num 0, Val.num 1, Val.num 0, Val.num 0]⟩)
        (maximumFilter
          (sanitize ⟨[2, 2], [Val.num 0, Val.num 1, Val.num 0, Val.num 0]⟩)
          (filterOffsets
            (sanitize ⟨[2, 2], [Val.num 0, Val.num 1, Val.num 0, Val.num 0]⟩)
            3 none))).shape = [2, 2] :=
  c9_rank3_only (Val.num (-1)) 3 none none none none none none
    (by simp) (by decide)

/-- C7: when no candidate cell survives the mask, border and threshold
narrowing, `find_peaks` returns a zero-row table that still carries the
column names `z_peak, y_peak, x_peak, peak_value`, rather than an error. -/
theorem c7_empty_table {data : NDArr Val} {t : Val} {bs : Nat}
    {fp mask : Option (NDArr Bool)} {bw : Option Nat} {g3 : NDArr Bool}
    {d0 d1 d2 : Nat} (np : Option Nat)
    (hg : goodmask3 data t bs fp mask bw = .ok g3)
    (hshape : data.shape = [d0, d1, d2])
    (hempty : trueCoords g3 = []) :
    find_peaks data t bs fp mask bw np none none
      = .ok ⟨[("z_peak", []), ("y_peak", []), ("x_peak", []),
          ("peak_value", [])]⟩ := by
  unfold find_peaks peakLists
  rw [hg]
  dsimp only
  rw [hempty]
  have hsh : (sanitize data).shape = [d0, d1, d2] := by
    rw [sanitize_shape, hshape]
  rw [hsh]
  unfold unpack3
  dsimp only
  cases np with
  | none => rfl
  | some k =>
    unfold truncate
    dsimp only
    rw [if_neg (by simp)]
    rfl

theorem c7_witness :
    find_peaks ⟨[1, 1, 1], [Val.num 0]⟩ (Val.num 0) 3 none none none none
        none none
      = .ok ⟨[("z_peak", []), ("y_peak", []), ("x_peak", []),
          ("peak_value", [])]⟩ :=
  c7_empty_table none rfl rfl rfl

/-- C5: the threshold step keeps a candidate cell iff its (NaN-sanitized)
value is strictly greater than the threshold — cells equal to the threshold
are excluded — and consequently every value returned by the peak-list stage
strictly exceeds the threshold. -/
theorem c5_threshold_strict :
    (∀ (g : NDArr Bool) (d : NDArr Val) (t : Val) (k : Nat),
      k < g.data.length → k < d.data.length →
      ((thresholdStep g d t).data.getD k false = true
        ↔ (g.data.getD k false = true
            ∧ Val.gtb (d.data.getD k Val.nan) t = true))) ∧
    (∀ (data : NDArr Val) (t : Val) (bs : Nat) (fp mask : Option (NDArr Bool))
      (bw np : Option Nat) (zs ys xs : List Nat) (vals : List Val),
      data.data.length = data.shape.prod →
      (∀ m ∈ mask, m.data.length = m.shape.prod) →
      peakLists data t bs fp mask bw np = .ok (zs, ys, xs, vals) →
      ∀ v ∈ vals, Val.gtb v t = true) := by
  constructor
  · intro g d t k hk1 hk2
    have heq : (thresholdStep g d t).data.getD k false
        = (g.data.getD k false && Val.gtb (d.data.getD k Val.nan) t) := by
      show (List.zipWith _ g.data d.data).getD k false = _
      rw [List.getD_eq_getElem _ _ (by rw [List.length_zipWith]; omega),
        List.getElem_zipWith, List.getD_eq_getElem _ _ hk1,
        List.getD_eq_getElem _ _ hk2]
    rw [heq, Bool.and_eq_true]
  · intro data t bs fp mask bw np zs ys xs vals wfd wfm h v hv
    rcases peakLists_ok_goodmask3 h with ⟨g3, hg⟩
    rcases goodmask3_ok hg with ⟨g1, hms, -⟩
    rcases peakLists_rows hg h with ⟨rows, -, -, -, hvals, hmem⟩
    subst hvals
    rcases List.mem_map.mp hv with ⟨c, hcrows, rfl⟩
    rcases row_flat wfd wfm hms hg (hmem c hcrows) with
      ⟨k, -, -, -, hget, hthr, -⟩
    rw [hget]
    exact hthr

theorem c5_witness :
    (thresholdStep ⟨[1], [true]⟩ ⟨[1], [Val.num 5]⟩ (Val.num 0)).data.getD 0
        false = true ∧
    ∀ v ∈ [Val.num 5], Val.gtb v (Val.num 0) = true :=
  ⟨(c5_threshold_strict.1 ⟨[1], [true]⟩ ⟨[1], [Val.num 5]⟩ (Val.num 0) 0
      (by decide) (by decide)).mpr (by decide),
   c5_threshold_strict.2 ⟨[1, 1, 1], [Val.num 5]⟩ (Val.num 0) 3 none none
     none none [0] [0] [0] [Val.num 5] (by decide) (by simp) rfl⟩

/-- C6: for every cube and positive `bin_size`, the binning mode of
`freq_smooth` returns `floor(len / bin_size)` slices along axis 0, slice
`k` being the element-wise sum of input slices `k*bin_size` through
`(k+1)*bin_size - 1`; remainder slices that do not fill a group are
dropped. -/
theorem c6_freq_smooth_bin (gconv : Nat → List ℚ → List ℚ)
    (cube : List Plane) (bin_size smooth d1 d2 : Nat) (hb : 0 < bin_size)
    (hrect : ∀ p ∈ cube, p.length = d1 ∧ ∀ r ∈ p, r.length = d2) :
    (freq_smooth gconv cube bin_size smooth).length
        = cube.length / bin_size ∧
    ∀ k, k < cube.length / bin_size → ∀ i, i < d1 → ∀ j, j < d2 →
      (((freq_smooth gconv cube bin_size smooth).getD k []).getD i []).getD
          j 0
        = ((List.range bin_size).map (fun r =>
            ((cube.getD (k * bin_size + r) []).getD i []).getD j 0)).sum := by
  have hb' : bin_size ≠ 0 := by omega
  constructor
  · simp [freq_smooth, hb']
  · intro k hk i hi j hj
    have hkb : (k + 1) * bin_size ≤ cube.length :=
      (Nat.le_div_iff_mul_le hb).mp hk
    have hkb' : k * bin_size + bin_size ≤ cube.length := by
      rw [Nat.succ_mul] at hkb
      exact hkb
    unfold freq_smooth
    rw [if_pos hb',
      FindPeaks3D.getD_map_of_lt _ _
        (by rw [List.length_range]; exact hk) 0 [],
      List.getD_eq_getElem (List.range (cube.length / bin_size)) 0
        (by rw [List.length_range]; exact hk),
      List.getElem_range]
    have hSlen : ((cube.drop (k * bin_size)).take bin_size).length
        = bin_size := by
      rw [List.length_take, List.length_drop]
      omega
    have hSne : (cube.drop (k * bin_size)).take bin_size ≠ [] := by
      intro h0
      rw [h0] at hSlen
      simp at hSlen
      omega
    have hSrect : ∀ p ∈ (cube.drop (k * bin_size)).take bin_size,
        p.length = d1 ∧ ∀ r ∈ p, r.length = d2 := fun p hp =>
      hrect p ((List.drop_sublist _ _).subset
        ((List.take_sublist _ _).subset hp))
    rw [sumSlices_entry hSne hSrect hi hj,
      FindPeaks3D.map_take_drop_eq_range
        (fun p => (p.getD i []).getD j 0) cube (k * bin_size) bin_size []
        hkb']

theorem c6_witness :
    (freq_smooth (fun _ l => l) [[[1]], [[2]], [[3]], [[4]], [[5]]] 2 0).length
        = 2 ∧
    (((freq_smooth (fun _ l => l)
          [[[1]], [[2]], [[3]], [[4]], [[5]]] 2 0).getD 1 []).getD 0 []).getD
        0 0
      = ((List.range 2).map (fun r =>
          ((([[[1]], [[2]], [[3]], [[4]], [[5]]] : List Plane).getD
              (1 * 2 + r) []).getD 0 []).getD 0 0)).sum :=
  ⟨(c6_freq_smooth_bin (fun _ l => l) [[[1]], [[2]], [[3]], [[4]], [[5]]]
      2 0 1 1 (by decide) (by decide)).1,
   (c6_freq_smooth_bin (fun _ l => l) [[[1]], [[2]], [[3]], [[4]], [[5]]]
      2 0 1 1 (by decide) (by decide)).2 1 (by decide) 0 (by decide) 0
      (by decide)⟩

/-- C1 counterexample: the claim says `border_width = 0` excludes no cell,
so the interior peak below should be returned either way; the code's slice
`[-0:]` blanks the whole mask instead, returning zero rows. -/
theorem c1_counterexample :
    find_peaks ⟨[1, 1, 3], [Val.num 0, Val.num 5, Val.num 0]⟩ (Val.num 0) 3
        none none (some 0) none none none
      = .ok ⟨[("z_peak", []), ("y_peak", []), ("x_peak", []),
          ("peak_value", [])]⟩ ∧
    find_peaks ⟨[1, 1, 3], [Val.num 0, Val.num 5, Val.num 0]⟩ (Val.num 0) 3
        none none none none none none
      = .ok ⟨[("z_peak", [Cell.int 0]), ("y_peak", [Cell.int 0]),
          ("x_peak", [Cell.int 1]),
          ("peak_value", [Cell.val (Val.num 5)])]⟩ := ⟨rfl, rfl⟩

/-- C1 (amended): for `border_width = b ≥ 1` the border step keeps a set
cell iff no axis index lies in `[0, b)` or `[ext - b, ext)` (so no returned
coordinate lies in that margin); but for `b = 0` the Python slice `[-0:]`
covers each whole axis, so every cell of a positive-rank mask is cleared
rather than none. -/
theorem c1_border_exclusion :
    (∀ (g : NDArr Bool) (b k : Nat), 1 ≤ b → k < g.data.length →
      k < (allCoords g.shape).length →
      ((borderStep g (some b)).data.getD k false = true ↔
        (g.data.getD k false = true ∧
          ∀ p ∈ (((allCoords g.shape).getD k []).zip g.shape),
            ¬ (p.1 < b ∨ p.2 ≤ p.1 + b)))) ∧
    (∀ (g : NDArr Bool) (k : Nat), g.shape ≠ [] → k < g.data.length →
      k < (allCoords g.shape).length →
      (borderStep g (some 0)).data.getD k false = false) ∧
    (∀ (data : NDArr Val) (t : Val) (bs : Nat) (fp mask : Option (NDArr Bool))
      (np : Option Nat) (b d0 d1 d2 : Nat) (zs ys xs : List Nat)
      (vals : List Val),
      data.data.length = data.shape.prod →
      (∀ m ∈ mask, m.data.length = m.shape.prod) →
      data.shape = [d0, d1, d2] →
      peakLists data t bs fp mask (some b) np = .ok (zs, ys, xs, vals) →
      (∀ z ∈ zs, b ≤ z ∧ z + b < d0) ∧ (∀ y ∈ ys, b ≤ y ∧ y + b < d1) ∧
      (∀ x ∈ xs, b ≤ x ∧ x + b < d2)) :=
  ⟨fun _ _ _ hb hk1 hk2 => borderStep_pos_iff hb hk1 hk2,
   fun _ _ hsh hk1 hk2 => borderStep_zero_getD hsh hk1 hk2,
   fun _ _ _ _ _ _ _ _ _ _ _ _ _ _ wfd wfm hshape h =>
     row_border_bounds wfd wfm hshape h⟩

theorem c1_witness :
    (borderStep ⟨[3], [true, true, true]⟩ (some 1)).data.getD 1 false
        = true ∧
    (borderStep ⟨[3], [true, true, true]⟩ (some 0)).data.getD 0 false
        = false ∧
    (∀ z ∈ [1], 1 ≤ z ∧ z + 1 < 3) :=
  ⟨(c1_border_exclusion.1 ⟨[3], [true, true, true]⟩ 1 1 (by decide)
      (by decide) (by decide)).mpr (by decide),
   c1_border_exclusion.2.1 ⟨[3], [true, true, true]⟩ 0 (by decide)
      (by decide) (by decide),
   (c1_border_exclusion.2.2 ⟨[3, 3, 3], (List.range 27).map
        (fun k => if k = 13 then Val.num 10 else Val.num 0)⟩ (Val.num 0) 3
      none none none 1 3 3 3 [1] [1] [1] [Val.num 10] (by decide)
      (by simp) (by decide) (by decide)).1⟩

/-- C2 counterexample: two candidates tied at value 5 with `npeaks = 1`:
the code keeps the one later in scan order (`x_peak = 1`), not the earlier
one the claim predicts. -/
theorem c2_counterexample :
    find_peaks ⟨[1, 1, 2], [Val.num 5, Val.num 5]⟩ (Val.num 0) 3 none none
        none (some 1) none none
      = .ok ⟨[("z_peak", [Cell.int 0]), ("y_peak", [Cell.int 0]),
          ("x_peak", [Cell.int 1]),
          ("peak_value", [Cell.val (Val.num 5)])]⟩ ∧
    (⟨[("z_peak", [Cell.int 0]), ("y_peak", [Cell.int 0]),
        ("x_peak", [Cell.int 1]),
        ("peak_value", [Cell.val (Val.num 5)])]⟩ : QTable)
      ≠ ⟨[("z_peak", [Cell.int 0]), ("y_peak", [Cell.int 0]),
          ("x_peak", [Cell.int 0]),
          ("peak_value", [Cell.val (Val.num 5)])]⟩ :=
  ⟨rfl, by decide⟩

/-- C2 (amended): when the extracted candidates strictly exceed
`npeaks = k`, exactly `k` records are returned, ordered by non-increasing
peak value; every kept value is at least every excluded candidate's value;
and among candidates tied in value at the truncation boundary the one that
appeared LATER in row-major scan order is kept (reversing numpy's stable
ascending argsort prefers the later index among ties). -/
theorem c2_truncation (data : NDArr Val) (t : Val) (bs : Nat)
    (fp mask : Option (NDArr Bool)) (bw : Option Nat) (k : Nat)
    (zs ys xs : List Nat) (vals : List Val) (g3 : NDArr Bool)
    {pv : List Val}
    (hg : goodmask3 data t bs fp mask bw = .ok g3)
    (hpv : pv = (trueCoords g3).map (fun c => (sanitize data).get c))
    (h : peakLists data t bs fp mask bw (some k) = .ok (zs, ys, xs, vals))
    (hk : k < (trueCoords g3).length) :
    vals.length = k ∧
    vals.Pairwise (fun a b => Val.leb b a = true) ∧
    vals = (truncIdx pv k).map (fun i => pv.getD i Val.nan) ∧
    (∀ i ∈ truncIdx pv k, ∀ j, j < pv.length → j ∉ truncIdx pv k →
      Val.leb (pv.getD j Val.nan) (pv.getD i Val.nan) = true) ∧
    (∀ i j : Nat, i < j → j < pv.length →
      pv.getD i Val.nan = pv.getD j Val.nan →
      i ∈ truncIdx pv k → j ∈ truncIdx pv k) := by
  unfold peakLists at h
  rw [hg] at h
  dsimp only at h
  cases hup : unpack3 (sanitize data).shape (trueCoords g3) with
  | error e => rw [hup] at h; cases h
  | ok triple =>
    rw [hup] at h
    obtain ⟨zs0, ys0, xs0⟩ := triple
    rcases unpack3_ok hup with ⟨-, -, hx0, -⟩
    simp only [Except.ok.injEq] at h
    unfold truncate at h
    dsimp only at h
    have hxlen : xs0.length = (trueCoords g3).length := by
      rw [hx0, List.length_map]
    rw [if_pos (by rw [hxlen]; exact hk)] at h
    simp only [Prod.mk.injEq] at h
    rcases h with ⟨-, -, -, hvals⟩
    subst hpv
    subst hvals
    have hpvlen : ((trueCoords g3).map
        (fun c => (sanitize data).get c)).length = (trueCoords g3).length :=
      List.length_map _ _
    refine ⟨?_, truncVals_desc _ _, rfl, ?_, ?_⟩
    · rw [List.length_map, truncIdx_length (by rw [hpvlen]; omega)]
    · intro i hi j hj hjn
      exact truncVals_ge_dropped hi hj hjn
    · intro i j hij hj hv hi
      exact truncIdx_tie hij hj hv hi

theorem c2_witness :
    ([Val.num 5, Val.num 5] : List Val).length = 2 ∧
    2 ∈ truncIdx ((trueCoords ⟨[1, 1, 3], [true, true, true]⟩).map
        (fun c => (sanitize
          ⟨[1, 1, 3], [Val.num 5, Val.num 5, Val.num 5]⟩).get c)) 2 :=
  ⟨(c2_truncation ⟨[1, 1, 3], [Val.num 5, Val.num 5, Val.num 5]⟩
      (Val.num 0) 3 none none none 2 [0, 0] [0, 0] [2, 1]
      [Val.num 5, Val.num 5] ⟨[1, 1, 3], [true, true, true]⟩ rfl rfl rfl
      (by decide)).1,
   (c2_truncation ⟨[1, 1, 3], [Val.num 5, Val.num 5, Val.num 5]⟩
      (Val.num 0) 3 none none none 2 [0, 0] [0, 0] [2, 1]
      [Val.num 5, Val.num 5] ⟨[1, 1, 3], [true, true, true]⟩ rfl rfl rfl
      (by decide)).2.2.2.2 1 2 (by decide) (by decide) (by decide)
      (by decide)⟩

/-- C3 counterexample: with a wcs configured, `skycoord_peak` lands at
column position 2 — between `y_peak` and `x_peak` — not after `peak_value`
as the claim states. -/
theorem c3_counterexample :
    (find_peaks ⟨[1, 1, 1], [Val.num 1]⟩ (Val.num 0) 3 none none none none
        none (some (fun x y => (x, y)))).map QTable.colnames
      = .ok ["z_peak", "y_peak", "skycoord_peak", "x_peak", "peak_value"] ∧
    (["z_peak", "y_peak", "skycoord_peak", "x_peak", "peak_value"]
      : List String)
      ≠ ["z_peak", "y_peak", "x_peak", "peak_value", "skycoord_peak"] :=
  ⟨rfl, by decide⟩

/-- C3 (amended): the output table's base columns are
`z_peak, y_peak, x_peak, peak_value` in that order; when a wcs is
configured, `skycoord_peak` is inserted at position 2 (between `y_peak`
and `x_peak`, not after `peak_value`); with centroiding, `x_centroid` and
`y_centroid` are appended, and with both, `skycoord_centroid` follows
`y_centroid` at the end. -/
theorem c3_column_order (data : NDArr Val) (t : Val) (bs : Nat)
    (fp mask : Option (NDArr Bool)) (bw np : Option Nat)
    (cf : Option CentroidFn) (w : Option WcsFn) (tbl : QTable)
    (h : find_peaks data t bs fp mask bw np cf w = .ok tbl) :
    tbl.colnames = match w, cf with
      | none, none => ["z_peak", "y_peak", "x_peak", "peak_value"]
      | some _, none =>
          ["z_peak", "y_peak", "skycoord_peak", "x_peak", "peak_value"]
      | none, some _ =>
          ["z_peak", "y_peak", "x_peak", "peak_value", "x_centroid",
           "y_centroid"]
      | some _, some _ =>
          ["z_peak", "y_peak", "skycoord_peak", "x_peak", "peak_value",
           "x_centroid", "y_centroid", "skycoord_centroid"] := by
  unfold find_peaks at h
  cases hpl : peakLists data t bs fp mask bw np with
  | error e => rw [hpl] at h; cases h
  | ok quad =>
    rw [hpl] at h
    obtain ⟨zs, ys, xs, vals⟩ := quad
    dsimp only at h
    simp only [Except.ok.injEq] at h
    subst h
    cases w with
    | none => cases cf with
      | none => rfl
      | some c => rfl
    | some wf => cases cf with
      | none => rfl
      | some c => rfl

theorem c3_witness :
    (⟨[("z_peak", [Cell.int 0]), ("y_peak", [Cell.int 0]),
        ("skycoord_peak", [Cell.sky (Val.num 0) (Val.num 0)]),
        ("x_peak", [Cell.int 0]),
        ("peak_value", [Cell.val (Val.num 1)])]⟩ : QTable).colnames
      = ["z_peak", "y_peak", "skycoord_peak", "x_peak", "peak_value"] :=
  c3_column_order ⟨[1, 1, 1], [Val.num 1]⟩ (Val.num 0) 3 none none none
    none none (some (fun x y => (x, y))) _ (by decide)

/-- C4 counterexample: a field whose cells are the global minimum plus one
NaN: the sanitized NaN cell ties the neighbourhood maximum and is reported
as a peak at coordinate (0, 0, 1), although the field is not all-NaN. -/
theorem c4_counterexample :
    find_peaks ⟨[1, 1, 2], [Val.num 0, Val.nan]⟩ (Val.num (-1)) 3 none none
        none none none none
      = .ok ⟨[("z_peak", [Cell.int 0, Cell.int 0]),
          ("y_peak", [Cell.int 0, Cell.int 0]),
          ("x_peak", [Cell.int 0, Cell.int 1]),
          ("peak_value", [Cell.val (Val.num 0), Cell.val (Val.num 0)])]⟩ ∧
    Val.isNaN ((⟨[1, 1, 2], [Val.num 0, Val.nan]⟩ : NDArr Val).get
        [0, 0, 1]) = true ∧
    Val.isNaN ((⟨[1, 1, 2], [Val.num 0, Val.nan]⟩ : NDArr Val).get
        [0, 0, 0]) = false :=
  ⟨rfl, rfl, rfl⟩

/-- C4 (amended): every NaN cell is replaced, in the private working copy,
by the global minimum finite value (finite whenever some finite cell
exists); no NaN appears among the returned peak values; and a NaN input
cell can be reported as a peak only with that global minimum as its
reported value — the original "never reported except all-NaN" claim fails
on minimum-valued plateaus. -/
theorem c4_nan_handling :
    (∀ a : NDArr Val, a.data.any Val.isNaN = true →
      (sanitize a).data
        = a.data.map (fun v => if v.isNaN then nanmin a.data else v)) ∧
    (∀ xs : List Val, (∃ v ∈ xs, v.isNaN = false) →
      (nanmin xs).isNaN = false) ∧
    (∀ (data : NDArr Val) (t : Val) (bs : Nat) (fp mask : Option (NDArr Bool))
      (bw np : Option Nat) (zs ys xs : List Nat) (vals : List Val),
      data.data.length = data.shape.prod →
      (∀ m ∈ mask, m.data.length = m.shape.prod) →
      (∃ v ∈ data.data, v.isNaN = false) →
      peakLists data t bs fp mask bw np = .ok (zs, ys, xs, vals) →
      (∀ v ∈ vals, v.isNaN = false) ∧
      (∀ r, r < vals.length →
        (data.get [zs.getD r 0, ys.getD r 0, xs.getD r 0]).isNaN = true →
        vals.getD r Val.nan = nanmin data.data)) := by
  refine ⟨fun a h => sanitize_eq_map h, fun xs h => nanmin_not_nan h, ?_⟩
  intro data t bs fp mask bw np zs ys xs vals wfd wfm hfin h
  rcases peakLists_ok_goodmask3 h with ⟨g3, hg⟩
  rcases goodmask3_ok hg with ⟨g1, hms, -⟩
  rcases peakLists_ok_shape3 h with ⟨a, b, c3, hsh3⟩
  rcases peakLists_rows hg h with ⟨rows, hzs, hys, hxs, hvals, hmem⟩
  constructor
  · intro v hv
    rw [hvals] at hv
    rcases List.mem_map.mp hv with ⟨c, hc, rfl⟩
    rcases row_flat wfd wfm hms hg (hmem c hc) with ⟨k, hkp, -, -, hget, -, -⟩
    rw [hget]
    exact sanitize_no_nan hfin _
      (getD_mem (by rw [sanitize_length, wfd]; exact hkp) Val.nan)
  · intro r hr hnan
    have hrlen : r < rows.length := by
      rw [hvals, List.length_map] at hr
      exact hr
    have hc : rows.getD r [] ∈ rows := getD_mem hrlen []
    rcases row_flat wfd wfm hms hg (hmem _ hc) with
      ⟨k, hkp, hflat, hclen, hget, -, -⟩
    have hz : zs.getD r 0 = (rows.getD r []).getD 0 0 := by
      rw [hzs]
      exact getD_map_of_lt _ _ hrlen [] 0
    have hy : ys.getD r 0 = (rows.getD r []).getD 1 0 := by
      rw [hys]
      exact getD_map_of_lt _ _ hrlen [] 0
    have hx : xs.getD r 0 = (rows.getD r []).getD 2 0 := by
      rw [hxs]
      exact getD_map_of_lt _ _ hrlen [] 0
    have hctrip : [zs.getD r 0, ys.getD r 0, xs.getD r 0] = rows.getD r [] := by
      rw [hz, hy, hx]
      exact (eq_triple_of_length_three (by rw [hclen, hsh3]; rfl)).symm
    rw [hctrip] at hnan
    have hvr : vals.getD r Val.nan = (sanitize data).get (rows.getD r []) := by
      rw [hvals]
      exact getD_map_of_lt _ _ hrlen [] Val.nan
    rw [hvr, hget]
    have hdg : data.get (rows.getD r []) = data.data.getD k Val.nan := by
      show data.data.getD (flatIndex data.shape (rows.getD r [])) Val.nan = _
      rw [hflat]
    rw [hdg] at hnan
    have hkdl : k < data.data.length := by
      rw [wfd]
      exact hkp
    have hany : data.data.any Val.isNaN = true :=
      List.any_eq_true.mpr ⟨_, getD_mem hkdl Val.nan, hnan⟩
    have hmap : (sanitize data).data.getD k Val.nan
        = (fun v => if v.isNaN then nanmin data.data else v)
            (data.data.getD k Val.nan) := by
      rw [sanitize_eq_map hany]
      exact getD_map_of_lt _ _ hkdl Val.nan Val.nan
    rw [hmap]
    dsimp only
    rw [if_pos hnan]

theorem c4_witness :
    (∀ v ∈ [Val.num 0, Val.num 0], v.isNaN = false) ∧
    ([Val.num 0, Val.num 0].getD 1 Val.nan
      = nanmin [Val.num 0, Val.nan]) ∧
    (nanmin [Val.num 0, Val.nan]).isNaN = false :=
  ⟨(c4_nan_handling.2.2 ⟨[1, 1, 2], [Val.num 0, Val.nan]⟩ (Val.num (-1)) 3
      none none none none [0, 0] [0, 0] [0, 1] [Val.num 0, Val.num 0]
      (by decide) (by simp) (by decide) (by decide)).1,
   (c4_nan_handling.2.2 ⟨[1, 1, 2], [Val.num 0, Val.nan]⟩ (Val.num (-1)) 3
      none none none none [0, 0] [0, 0] [0, 1] [Val.num 0, Val.num 0]
      (by decide) (by simp) (by decide) (by decide)).2 1 (by decide)
      (by decide),
   c4_nan_handling.2.1 [Val.num 0, Val.nan] (by decide)⟩

end Claims
